import Mathlib

/-!
Verification of the libreport dump-directory manager (src/lib/dump_dir.c)
against its natural-language specification.

The C code is shallowly embedded: file contents are lists of byte values
(`List Nat`, each element in 0..255, with 0 the NUL byte and 10 the newline),
syscall outcomes are passed in explicitly (`Except`/`Option` arguments), and
machine integers are modelled as `Nat`/`Int` with explicit `% 2 ^ w`
reductions where the C code can overflow.  `time_t` is modelled as the
usual 8-byte signed integer, and the C `int` as a 32-bit two's-complement
integer (its bit pattern is kept as a `Nat` below `2 ^ 32`).
-/

namespace DumpDir

/-! ### Byte classifiers (ctype in the C locale) -/

/-- Model of C `isspace` in the C locale: space and the five control
whitespace characters 9..13. -/
def isspace_byte (c : Nat) : Bool := c = 32 || (9 ≤ c && c ≤ 13)

/-- Model of C `isdigit`: the ASCII digits. -/
def isdigit_byte (c : Nat) : Bool := 48 ≤ c && c ≤ 57

/-- Numeric value of a big-endian list of ASCII digit bytes. -/
def digitsVal (s : List Nat) : Nat := s.foldl (fun a c => a * 10 + (c - 48)) 0

/-! ### errno values used by dump_dir.c -/

def ENOENT : Nat := 2
def EACCES : Nat := 13
def ENOTDIR : Nat := 20
def EISDIR : Nat := 21
def EINVAL : Nat := 22

/-! ### secure_openat_read (dump_dir.c lines 120-144)

The openat(2) outcome is an explicit argument: `Except.error e` when the
`O_RDONLY | O_NOFOLLOW` open fails with errno `e`, and `Except.ok ino` when
it succeeds and the opened descriptor refers to the inode `ino`.  `fstat` on
an already-open descriptor is modelled as always succeeding (on an open fd
it can fail only with EBADF/EFAULT, neither of which can arise here). -/

inductive FType where
  | reg
  | dir
  | lnk
  | other
deriving DecidableEq

structure Inode where
  ftype : FType
  nlink : Nat
deriving DecidableEq

/-- Embedding of `secure_openat_read`: propagate an open failure; otherwise
fail with EINVAL if the opened file is not regular or has more than one
hard link, else return the descriptor. -/
def secure_openat_read (res : Except Nat Inode) : Except Nat Inode :=
  match res with
  | .error e => .error e
  | .ok ino => if ¬(ino.ftype = FType.reg) ∨ 1 < ino.nlink then .error EINVAL else .ok ino

/-! ### parse_time_file_at (dump_dir.c lines 151-211)

`content` is the byte content of the `time` file.  `read` into the
25-byte buffer (`sizeof(time_t) * 3 + 1` with `sizeof(time_t) = 8`)
returns `min content.length 25` bytes.  After the optional trailing-newline
strip and NUL termination, the buffer is handled through C-string functions
(`strtoll`, `isdigit_str`), so it is truncated at its first NUL byte. -/

def TIME_BUF_SIZE : Nat := 8 * 3 + 1

def MAX_TIME_T : Nat := 2 ^ (8 * 8 - 1) - 1

def LLONG_MAX : Int := 2 ^ 63 - 1

def LLONG_MIN : Int := -(2 ^ 63)

/-- Embedding of `isdigit_str`: true iff the C string is a non-empty
sequence of ASCII digits (the do-while loop rejects the empty string). -/
def isdigit_str (s : List Nat) : Bool := !s.isEmpty && s.all isdigit_byte

/-- Model of `strtoll(s, &endptr, 10)` on the C string `s`: returns the
clamped value, the number of characters consumed (`endptr - s`), and
whether ERANGE was set.  When no digits follow the optional whitespace and
sign, `endptr` is reset to the start, i.e. zero characters are consumed. -/
def strtoll10 (s : List Nat) : Int × Nat × Bool :=
  let sp := s.takeWhile isspace_byte
  let rest := s.drop sp.length
  let sgnLen : Nat := if rest.head? = some 43 ∨ rest.head? = some 45 then 1 else 0
  let sgn : Int := if rest.head? = some 45 then -1 else 1
  let digs := (rest.drop sgnLen).takeWhile isdigit_byte
  if digs.isEmpty then (0, 0, false)
  else
    let v : Int := sgn * (digitsVal digs : Int)
    if v > LLONG_MAX then (LLONG_MAX, sp.length + sgnLen + digs.length, true)
    else if v < LLONG_MIN then (LLONG_MIN, sp.length + sgnLen + digs.length, true)
    else (v, sp.length + sgnLen + digs.length, false)

/-- The C string in `time_buf` examined by the parser: the bytes read (at
most the buffer size), with one trailing newline stripped (the C code
overwrites it with the NUL terminator), truncated at the first NUL byte of
the content itself (`strtoll` and `isdigit_str` stop there). -/
def time_str_of (content : List Nat) : List Nat :=
  (if content.getLast? = some 10 then content.dropLast else content).takeWhile (fun c => c ≠ 0)

/-- Embedding of `parse_time_file_at` applied to the byte content read from
an already successfully opened `time` file.  Returns the parsed timestamp,
or `-1` on any failure. -/
def parse_time_file_at (content : List Nat) : Int :=
  let rdsz := min content.length TIME_BUF_SIZE
  if rdsz = TIME_BUF_SIZE then -1
  else
    let s := time_str_of (content.take rdsz)
    let r := strtoll10 s
    if r.2.2 || ¬(r.2.1 = s.length) || r.1 ≥ (MAX_TIME_T : Int) || !isdigit_str s then -1
    else r.1

/-- Embedding of `parse_time_file_at` including its `secure_openat_read`
step: when the secure open fails the function returns `-1` without looking
at any content. -/
def parse_time_file_at_full (res : Except Nat Inode) (content : List Nat) : Int :=
  match secure_openat_read res with
  | .error _ => -1
  | .ok _ => parse_time_file_at content

/-- Claimed success condition of C2, written from the claim text: after
stripping at most one trailing newline, the content read is a non-empty
sequence of ASCII digits whose value is below `2 ^ 63 - 1`, and the read
did not fill the whole buffer. -/
def c2_claim_ok (content : List Nat) : Bool :=
  decide (content.length < TIME_BUF_SIZE) &&
    (let s := if content.getLast? = some 10 then content.dropLast else content
     isdigit_str s && decide (digitsVal s < MAX_TIME_T))

/-- Amended success condition for C2: same as the claim, but the digit test
applies to the NUL-truncated string actually seen by the C-string functions. -/
def c2_amended_ok (content : List Nat) : Bool :=
  decide (content.length < TIME_BUF_SIZE) &&
    isdigit_str (time_str_of content) &&
    decide (digitsVal (time_str_of content) < MAX_TIME_T)

/-! ### dd_lock, open context (dump_dir.c lines 289-335)

The claim concerns the branch taken when `sleep_usec` equals
`WAIT_FOR_OTHER_PROCESS_USLEEP`, i.e. the dd_opendir context, after
`create_symlink_lockfile_at` has succeeded: the inner symlink loop is
therefore modelled as acquiring the lock on every outer iteration, and the
oracle `timeOk i` tells whether `parse_time_file_at` succeeds on the `time`
file during outer iteration `i` (`dd_check` returns NULL iff it does).
`dontWait` models the `DD_DONT_WAIT_FOR_LOCK` bit of `flags`. -/

def NO_TIME_FILE_COUNT : Nat := 10

structure DdLockOut where
  ret : Int
  errno : Option Nat
  locked : Bool
  lockOnDisk : Bool
deriving DecidableEq

/-- One outer iteration of `dd_lock` in the open context, with `count + 1`
the current value of the C counter and `i` the iteration index.  The
symlink lock is created (so `.lock` is on disk); if the `time` file parses
the handle becomes locked; otherwise `.lock` is unlinked again and the
function either fails with EISDIR (counter exhausted or `dontWait`) or
retries after the `NO_TIME_FILE_USLEEP` sleep. -/
def dd_lock_open_loop (dontWait : Bool) (timeOk : Nat → Bool) : Nat → Nat → DdLockOut
  | 0, _ => ⟨0, none, true, true⟩
  | count + 1, i =>
    if timeOk i then ⟨0, none, true, true⟩
    else if count = 0 || dontWait then ⟨-1, some EISDIR, false, false⟩
    else dd_lock_open_loop dontWait timeOk count (i + 1)

/-- Embedding of `dd_lock(dd, WAIT_FOR_OTHER_PROCESS_USLEEP, flags)` on an
initially unlocked handle. -/
def dd_lock_open (dontWait : Bool) (timeOk : Nat → Bool) : DdLockOut :=
  dd_lock_open_loop dontWait timeOk NO_TIME_FILE_COUNT 0

/-! ### load_text_from_file_descriptor (dump_dir.c lines 860-914)

The sanitization pass over the bytes of the file.  The C accumulator
`int oneline` is updated by `oneline = (oneline << 1) | 1` on every newline;
it is a 32-bit signed integer, kept here as its bit pattern (a `Nat` below
`2 ^ 32`, the left shift reduced modulo `2 ^ 32`).  The C comparison
`oneline >= 1` is a signed comparison on that pattern. -/

/-- Byte filter of the sanitization pass: keep whitespace and bytes at or
above the space character, drop the other control bytes. -/
def keep_byte (c : Nat) : Bool := isspace_byte c || 32 ≤ c

/-- One update of the `oneline` accumulator: `(oneline << 1) | 1` on a
32-bit int, i.e. `(2 * oneline + 1) % 2 ^ 32` on the bit pattern. -/
def oneline_step (oneline : Nat) : Nat := (oneline * 2 + 1) % 2 ^ 32

/-- Signed 32-bit comparison `oneline >= 1` on the bit pattern: positive
patterns only (patterns at or above `2 ^ 31` are negative). -/
def int32_ge_one (pat : Nat) : Bool := decide (0 < pat) && decide (pat < 2 ^ 31)

/-- The fgetc loop of `load_text_from_file_descriptor`: accumulate the kept
(NUL-replaced) bytes and the `oneline` pattern.  `oneline` is updated on the
raw byte read, before the NUL replacement, exactly as in the C code. -/
def load_scan (content : List Nat) : List Nat × Nat :=
  content.foldl
    (fun acc ch =>
      let ol := if ch = 10 then oneline_step acc.2 else acc.2
      let ch2 := if ch = 0 then 32 else ch
      (if keep_byte ch2 then acc.1 ++ [ch2] else acc.1, ol))
    ([], 0)

/-- Embedding of `load_text_from_file_descriptor` on the byte content of a
successfully opened file: sanitize, then apply the trailing-newline
heuristic driven by the `oneline` pattern. -/
def load_text_from_file_descriptor (content : List Nat) : List Nat :=
  let scan := load_scan content
  let buf := scan.1
  let oneline := scan.2
  let last : Nat := if oneline ≠ 0 then (buf.getLast?).getD 0 else 0
  if last = 10 then
    if oneline = 1 then buf.dropLast else buf
  else
    if int32_ge_one oneline then buf ++ [10] else buf

/-- Embedding of the write side used by `dd_save_text`:
`save_binary_file_at` writes the payload bytes verbatim (`full_write` of
`strlen(data)` bytes), so on success the file content equals the payload. -/
def save_binary_file_at (data : List Nat) : List Nat := data

/-- Round trip of C3: `dd_load_text` after `dd_save_text(name, data)` on a
locked handle, assuming the intermediate syscalls succeed. -/
def dd_round_trip (data : List Nat) : List Nat :=
  load_text_from_file_descriptor (save_binary_file_at data)

/-- Failing input for the `oneline` overflow: 32 newlines followed by a
letter, an ordinary 33-line text whose last line is unterminated. -/
def c4_bad : List Nat := List.replicate 32 10 ++ [120]

/-- Failing payload for the round-trip claim, of the same shape. -/
def c3_bad : List Nat := List.replicate 32 10 ++ [97]

/-! ### reported_to scanning (dump_dir.c lines 1094-1199)

Loaded text never contains a NUL byte (the loader replaces NUL by space),
so the loaded `reported_to` content is modelled as a NUL-free byte list and
the C string walk over it terminates only at the end of the list.  Line
starts are the start of the content and every position following a newline,
exactly as the `strchrnul`-based walks in the C code. -/

/-- Position after the first newline of `l`, if any: the tail that the C
walks continue with after `p = strchrnul(p, 10); p++`. -/
def tail_after_nl (l : List Nat) : Option (List Nat) :=
  match l.dropWhile (fun b => b ≠ 10) with
  | [] => none
  | _ :: rest => some rest

theorem length_dropWhile_le (p : Nat → Bool) (l : List Nat) :
    (l.dropWhile p).length ≤ l.length := by
  induction l with
  | nil => simp
  | cons a as ih =>
    by_cases ha : p a = true
    · rw [List.dropWhile_cons_of_pos ha]
      exact Nat.le_succ_of_le ih
    · rw [List.dropWhile_cons_of_neg ha]

theorem tail_after_nl_length {l r : List Nat} (h : tail_after_nl l = some r) :
    r.length < l.length := by
  unfold tail_after_nl at h
  have hle : (l.dropWhile (fun b => b ≠ 10)).length ≤ l.length :=
    length_dropWhile_le _ l
  cases hd : l.dropWhile (fun b => b ≠ 10) with
  | nil => rw [hd] at h; cases h
  | cons x rest =>
    rw [hd] at h
    cases h
    rw [hd] at hle
    simpa using Nat.lt_of_lt_of_le (Nat.lt_succ_self _) hle

/-- Check of `add_reported_to` at one line start `content`: the stored line
`line` matches there iff `line` is a byte prefix and the next byte is a
newline or the end of the content (`strncmp` plus the terminator test). -/
def line_matches_at (content line : List Nat) : Bool :=
  content.take line.length = line &&
    ((content.drop line.length).isEmpty || (content.drop line.length).head? = some 10)

/-- The dedup scan of `add_reported_to`: does any line start of `content`
carry the stored line `line`? -/
def reported_to_has_line (line : List Nat) (content : List Nat) : Bool :=
  match content with
  | [] => false
  | c :: cs =>
    line_matches_at (c :: cs) line ||
      match h : tail_after_nl (c :: cs) with
      | none => false
      | some rest => reported_to_has_line line rest
termination_by content.length
decreasing_by exact tail_after_nl_length h

/-- Number of line starts of `content` at which `line` matches. -/
def reported_to_line_count (line : List Nat) (content : List Nat) : Nat :=
  match content with
  | [] => 0
  | c :: cs =>
    (if line_matches_at (c :: cs) line then 1 else 0) +
      match h : tail_after_nl (c :: cs) with
      | none => 0
      | some rest => reported_to_line_count line rest
termination_by content.length
decreasing_by exact tail_after_nl_length h

/-- The `p[-1] != '\n'` fixup of `add_reported_to`: append a newline to a
non-empty content that does not end with one. -/
def ensure_trailing_nl (content : List Nat) : List Nat :=
  if ¬(content = []) ∧ ¬(content.getLast? = some 10) then content ++ [10] else content

/-- Embedding of `add_reported_to` on the loaded `reported_to` content (the
empty list also covers a missing file, for which the C code saves
`line ++ "\n"` just as for empty content): if some line equals `line`, save
nothing; otherwise append `line` and a newline after ensuring the existing
content ends with a newline. -/
def add_reported_to (content line : List Nat) : List Nat :=
  if reported_to_has_line line content then content
  else ensure_trailing_nl content ++ line ++ [10]

/-! ### parse_reported_line and find_in_reported_to (dump_dir.c lines 1134-1199)

The helpers `skip_whitespace` and `skip_non_whitespace` are repository code
that is not under src/.  Modelled from the spec: "Tokenize on whitespace" -
`skip_whitespace` advances over `isspace` bytes, `skip_non_whitespace`
advances to the next `isspace` byte or the end of the string. -/

structure ReportResult where
  url : Option (List Nat)
  msg : Option (List Nat)
deriving DecidableEq

/-- Bytes of the string MSG followed by an equals sign. -/
def MSG_TAG : List Nat := [77, 83, 71, 61]

/-- Bytes of the string URL followed by an equals sign. -/
def URL_TAG : List Nat := [85, 82, 76, 61]

/-- The token loop of `parse_reported_line`, with `url` the URL field
accumulated so far: skip whitespace; at the end return; a token whose first
four bytes are MSG= consumes the rest of the line into the message field
and stops; a token whose first four bytes are URL= overwrites the URL field
with the token minus the tag; any other token is skipped. -/
def parse_reported_loop (line : List Nat) (url : Option (List Nat)) : ReportResult :=
  match hs : line.dropWhile isspace_byte with
  | [] => ⟨url, none⟩
  | c :: cs =>
    if (c :: cs).take 4 = MSG_TAG then ⟨url, some ((c :: cs).drop 4)⟩
    else
      parse_reported_loop ((c :: cs).drop ((c :: cs).takeWhile (fun b => !isspace_byte b)).length)
        (if (c :: cs).take 4 = URL_TAG
         then some (((c :: cs).takeWhile (fun b => !isspace_byte b)).drop 4)
         else url)
termination_by line.length
decreasing_by
  have hc : isspace_byte c = false := by
    have h2 := List.head?_dropWhile_not isspace_byte line
    rw [hs] at h2
    simpa using h2
  have htok : 1 ≤ ((c :: cs).takeWhile (fun b => !isspace_byte b)).length := by
    rw [List.takeWhile_cons_of_pos (by simp [hc])]
    simp
  have hlen : (c :: cs).length ≤ line.length := by
    have h3 := length_dropWhile_le isspace_byte line
    rw [hs] at h3
    exact h3
  simp only [List.length_drop]
  simp only [List.length_cons] at hlen htok ⊢
  omega

/-- Embedding of `parse_reported_line` (URL field initially unset). -/
def parse_reported_line (line : List Nat) : ReportResult :=
  parse_reported_loop line none

/-- The line scan of `find_in_reported_to` on the loaded content: at every
line start, a prefix match records the position right after the prefix, a
later match overriding an earlier one; the recorded suffix extends to the
next newline (turned into a NUL terminator by the C code) or the end. -/
def find_in_reported_to_data (pfx : List Nat) (content : List Nat) : Option (List Nat) :=
  match content with
  | [] => none
  | c :: cs =>
    let here : Option (List Nat) :=
      if (c :: cs).take pfx.length = pfx
      then some (((c :: cs).drop pfx.length).takeWhile (fun b => b ≠ 10))
      else none
    match h : tail_after_nl (c :: cs) with
    | none => here
    | some rest =>
      match find_in_reported_to_data pfx rest with
      | some r => some r
      | none => here
termination_by content.length
decreasing_by exact tail_after_nl_length h

/-- Embedding of `find_in_reported_to`: `content` is `none` when loading
`reported_to` returned NULL (absent or unreadable file), otherwise the
loaded byte content. -/
def find_in_reported_to (content : Option (List Nat)) (pfx : List Nat) : Option ReportResult :=
  match content with
  | none => none
  | some c => (find_in_reported_to_data pfx c).map parse_reported_line

/-! ### Declarative spec-side definitions for C6

These follow the words of the spec ("scan lines, remember the last line
starting with the prefix, then parse the suffix after the prefix";
"tokenize on whitespace", URL last-wins, MSG greedy) and are compared with
the scan-based embeddings above by the C6 theorem. -/

/-- The lines of a content, in file order: the segments between newlines,
one line per line start of the C walks (a trailing newline does not open an
extra empty line). -/
def lines_of (content : List Nat) : List (List Nat) :=
  match content with
  | [] => []
  | c :: cs =>
    (c :: cs).takeWhile (fun b => b ≠ 10) ::
      match h : tail_after_nl (c :: cs) with
      | none => []
      | some rest => lines_of rest
termination_by content.length
decreasing_by exact tail_after_nl_length h

/-- Spec-side selection: the last line starting with the prefix, minus the
prefix. -/
def spec_find_last (content pfx : List Nat) : Option (List Nat) :=
  (((lines_of content).filter (fun l => l.take pfx.length = pfx)).getLast?).map
    (fun l => l.drop pfx.length)

/-- Whitespace tokenization of a line, each token paired with the raw
remainder of the line from the token start on (the remainder carries what
a greedy MSG= token consumes). -/
def token_splits (line : List Nat) : List (List Nat × List Nat) :=
  match hs : line.dropWhile isspace_byte with
  | [] => []
  | c :: cs =>
    ((c :: cs).takeWhile (fun b => !isspace_byte b), c :: cs) ::
      token_splits ((c :: cs).drop ((c :: cs).takeWhile (fun b => !isspace_byte b)).length)
termination_by line.length
decreasing_by
  have hc : isspace_byte c = false := by
    have h2 := List.head?_dropWhile_not isspace_byte line
    rw [hs] at h2
    simpa using h2
  have htok : 1 ≤ ((c :: cs).takeWhile (fun b => !isspace_byte b)).length := by
    rw [List.takeWhile_cons_of_pos (by simp [hc])]
    simp
  have hlen : (c :: cs).length ≤ line.length := by
    have h3 := length_dropWhile_le isspace_byte line
    rw [hs] at h3
    exact h3
  simp only [List.length_drop]
  simp only [List.length_cons] at hlen htok ⊢
  omega

/-- Combination of an optional URL value with a fallback: the first value
wins when present (used to relate the accumulator of the source's token
loop with the spec-side last-URL-token selection). -/
def url_or (a u : Option (List Nat)) : Option (List Nat) :=
  match a with
  | some x => some x
  | none => u

/-- Spec-side parse of a reported_to line: among the whitespace tokens
before the first token starting with MSG=, the URL field is the last token
starting with URL= minus the tag (later values overwrite earlier ones); the
message field is everything after the MSG= tag of that first MSG token to
the end of the line; all other tokens are ignored. -/
def spec_parse (line : List Nat) : ReportResult :=
  let ts := token_splits line
  let pre := ts.takeWhile (fun p => ¬(p.1.take 4 = MSG_TAG))
  let msg := ((ts.drop pre.length).head?).map (fun p => p.2.drop 4)
  let url :=
    (((pre.map Prod.fst).filter (fun t => t.take 4 = URL_TAG)).map (fun t => t.drop 4)).getLast?
  ⟨url, msg⟩

/-! ### Accessibility query (dump_dir.c lines 1212-1317)

The directory stat is an explicit argument; `DUMP_DIR_OWNED_BY_USER` is the
build-time policy flag `ownedByUser`, and `uidInGroup` is the
passwd+group-database membership oracle used when the policy is off.
Results are pairs of the C return value and the final errno. -/

structure DirStat where
  isDir : Bool
  worldRead : Bool
  owner : Nat
  group : Nat
deriving DecidableEq

def DD_STAT_ACCESSIBLE_BY_UID : Nat := 1

def DD_STAT_OWNED_BY_UID : Nat := 2

/-- Embedding of `fdump_dir_stat_for_uid` on the stat of an open descriptor
(`fstat` of an open fd is modelled as always succeeding): not a directory
forces errno ENOTDIR and a negative return; otherwise errno is cleared and
the two status bits are computed from uid 0, world-read, and the build-time
ownership rule. -/
def fdump_dir_stat_for_uid (ownedByUser : Bool) (uidInGroup : Nat → Nat → Bool)
    (st : DirStat) (uid : Nat) : Int × Nat :=
  if st.isDir = false then (-1, ENOTDIR)
  else
    let d1 : Nat := if uid = 0 ∨ st.worldRead = true then DD_STAT_ACCESSIBLE_BY_UID else 0
    let own : Bool := if ownedByUser then decide (uid = st.owner) else uidInGroup uid st.group
    let d2 : Nat :=
      if uid = 0 ∨ st.worldRead = true ∨ own = true
      then DD_STAT_ACCESSIBLE_BY_UID ||| DD_STAT_OWNED_BY_UID else 0
    (((d1 ||| d2 : Nat) : Int), 0)

/-- Embedding of `dump_dir_stat_for_uid`: when the `O_DIRECTORY |
O_NOFOLLOW` open of the path fails (with whatever errno), the code logs,
overwrites errno with ENOTDIR and returns -1. -/
def dump_dir_stat_for_uid (ownedByUser : Bool) (uidInGroup : Nat → Nat → Bool)
    (openRes : Except Nat DirStat) (uid : Nat) : Int × Nat :=
  match openRes with
  | .error _ => (-1, ENOTDIR)
  | .ok st => fdump_dir_stat_for_uid ownedByUser uidInGroup st uid

/-- Embedding of `dump_dir_accessible_by_uid`: mask the accessible bit out
of a non-negative status, or return 0 on a negative one. -/
def dump_dir_accessible_by_uid (ownedByUser : Bool) (uidInGroup : Nat → Nat → Bool)
    (openRes : Except Nat DirStat) (uid : Nat) : Int × Nat :=
  let r := dump_dir_stat_for_uid ownedByUser uidInGroup openRes uid
  if 0 ≤ r.1 then (((r.1.toNat &&& DD_STAT_ACCESSIBLE_BY_UID : Nat) : Int), r.2) else (0, r.2)

/-! ### dd_delete_item (dump_dir.c lines 1025-1044) -/

/-- Embedding of `dd_delete_item`: `none` models `error_msg_and_die` (unlocked
handle or invalid name); otherwise the `unlinkat` outcome `unlinkRes`
(`none` for success, `some e` for failure with errno `e`) is mapped to the
return value, ENOENT being converted to success. -/
def dd_delete_item (locked : Bool) (validName : Bool) (unlinkRes : Option Nat) : Option Int :=
  if locked = false then none
  else if validName = false then none
  else some
    (match unlinkRes with
     | none => 0
     | some e => if e = ENOENT then 0 else -1)

/-! ### dd_exist (dump_dir.c lines 100-111 and 357-364) -/

/-- Embedding of `exist_file_dir_at`: `statRes` is the `fstatat(...,
AT_SYMLINK_NOFOLLOW)` outcome for the name, `none` on failure and `some t`
with the file type of the entry itself on success (a symbolic link,
dangling or not, stats as `FType.lnk`).  True iff the entry is a directory
or a regular file. -/
def exist_file_dir_at (statRes : Option FType) : Bool :=
  match statRes with
  | some t => t = FType.dir || t = FType.reg
  | none => false

/-- Embedding of `dd_exist`: `none` models `error_msg_and_die` on an invalid
name, otherwise the result of `exist_file_dir_at`. -/
def dd_exist (validName : Bool) (statRes : Option FType) : Option Bool :=
  if validName = false then none else some (exist_file_dir_at statRes)

/-! ## Theorems -/

/-! ### C1: dd_lock in the open context -/

theorem dd_lock_open_loop_cases (dontWait : Bool) (timeOk : Nat → Bool) :
    ∀ count i, dd_lock_open_loop dontWait timeOk count i = ⟨0, none, true, true⟩ ∨
      dd_lock_open_loop dontWait timeOk count i = ⟨-1, some EISDIR, false, false⟩ := by
  intro count
  induction count with
  | zero => intro i; left; rfl
  | succ n ih =>
    intro i
    by_cases ht : timeOk i = true
    · left
      simp [dd_lock_open_loop, ht]
    · by_cases h2 : (n = 0 || dontWait) = true
      · right
        simp only [Bool.not_eq_true] at ht
        simp [dd_lock_open_loop, ht, h2]
      · have h3 := ih (i + 1)
        simp only [Bool.not_eq_true] at ht
        simpa [dd_lock_open_loop, ht, h2] using h3

theorem dd_lock_open_loop_succ (dontWait : Bool) (timeOk : Nat → Bool) (n i : Nat) :
    dd_lock_open_loop dontWait timeOk (n + 1) i =
      if timeOk i then ⟨0, none, true, true⟩
      else if n = 0 || dontWait then ⟨-1, some EISDIR, false, false⟩
      else dd_lock_open_loop dontWait timeOk n (i + 1) := rfl

theorem dd_lock_open_loop_eisdir (dontWait : Bool) (timeOk : Nat → Bool) :
    ∀ count i, 0 < count →
      ((dd_lock_open_loop dontWait timeOk count i).errno = some EISDIR ↔
        (dontWait = true ∧ timeOk i = false) ∨ ∀ j, j < count → timeOk (i + j) = false) := by
  intro count
  induction count with
  | zero => intro i h; exact absurd h (by omega)
  | succ n ih =>
    intro i _
    rw [dd_lock_open_loop_succ]
    by_cases ht : timeOk i = true
    · rw [if_pos ht]
      constructor
      · intro habs
        exact Option.noConfusion habs
      · rintro (⟨_, hf⟩ | hall)
        · rw [ht] at hf
          exact Bool.noConfusion hf
        · have h0 := hall 0 (by omega)
          rw [Nat.add_zero, ht] at h0
          exact Bool.noConfusion h0
    · have ht2 : timeOk i = false := by
        revert ht
        cases timeOk i <;> simp
      rw [if_neg ht]
      by_cases hcond : (decide (n = 0) || dontWait) = true
      · rw [if_pos hcond]
        constructor
        · intro _
          rcases Bool.or_eq_true_iff.mp hcond with h0 | hd
          · right
            intro j hj
            have hn0 : n = 0 := of_decide_eq_true h0
            subst hn0
            have hj0 : j = 0 := Nat.lt_one_iff.mp hj
            subst hj0
            rw [Nat.add_zero]
            exact ht2
          · exact Or.inl ⟨hd, ht2⟩
        · intro _
          rfl
      · rw [if_neg hcond]
        have hn0 : ¬(n = 0) := by
          intro h0
          exact hcond (by simp [h0])
        have hd : dontWait = false := by
          revert hcond
          cases dontWait <;> simp
        rw [ih (i + 1) (Nat.pos_of_ne_zero hn0), hd]
        constructor
        · rintro (⟨habs, _⟩ | hall)
          · exact Bool.noConfusion habs
          · right
            intro j hj
            match j, hj with
            | 0, _ =>
              rw [Nat.add_zero]
              exact ht2
            | k + 1, hjk =>
              have hk := hall k (by omega)
              rwa [show i + 1 + k = i + (k + 1) by omega] at hk
        · rintro (⟨habs, _⟩ | hall)
          · exact Bool.noConfusion habs
          · right
            intro j hj
            have hj2 := hall (j + 1) (by omega)
            rwa [show i + (j + 1) = i + 1 + j by omega] at hj2

/-- C1: in the open context (`WAIT_FOR_OTHER_PROCESS_USLEEP`), after the
`.lock` symlink is created, a missing or unparseable `time` file makes
`dd_lock` unlink `.lock` before anything else on that path; the call
returns -1 with errno EISDIR exactly when the caller passed
DD_DONT_WAIT_FOR_LOCK (and the first check failed) or the missing-time
situation occurred on all NO_TIME_FILE_COUNT = 10 attempts; on every EISDIR
return the handle is not locked and `.lock` is not left on disk; otherwise
the loop retried until some attempt saw a parseable `time` file and the
handle ends up locked. -/
theorem dd_lock_open_spec (dontWait : Bool) (timeOk : Nat → Bool) :
    ((dd_lock_open dontWait timeOk).ret = -1 ∧
        (dd_lock_open dontWait timeOk).errno = some EISDIR ↔
      (dontWait = true ∧ timeOk 0 = false) ∨
        ∀ j, j < NO_TIME_FILE_COUNT → timeOk j = false)
    ∧ ((dd_lock_open dontWait timeOk).errno = some EISDIR →
        (dd_lock_open dontWait timeOk).locked = false ∧
          (dd_lock_open dontWait timeOk).lockOnDisk = false)
    ∧ ((dd_lock_open dontWait timeOk).errno = some EISDIR ∨
        ((dd_lock_open dontWait timeOk).ret = 0 ∧
          (dd_lock_open dontWait timeOk).locked = true ∧
          (dd_lock_open dontWait timeOk).lockOnDisk = true)) := by
  have hcases := dd_lock_open_loop_cases dontWait timeOk NO_TIME_FILE_COUNT 0
  have hiff := dd_lock_open_loop_eisdir dontWait timeOk NO_TIME_FILE_COUNT 0
    (by simp [NO_TIME_FILE_COUNT])
  simp only [show ∀ j : Nat, 0 + j = j from fun j => Nat.zero_add j] at hiff
  unfold dd_lock_open
  refine ⟨?_, ?_, ?_⟩
  · rcases hcases with hc | hc <;> rw [hc] <;> rw [hc] at hiff <;> simpa using hiff
  · rcases hcases with hc | hc <;> rw [hc] <;> simp
  · rcases hcases with hc | hc <;> rw [hc] <;> simp

theorem dd_lock_open_spec_witness :
    (dd_lock_open true (fun _ => false)).ret = -1 ∧
      (dd_lock_open true (fun _ => false)).errno = some EISDIR ∧
      (dd_lock_open true (fun _ => false)).locked = false ∧
      (dd_lock_open true (fun _ => false)).lockOnDisk = false := by
  have h := dd_lock_open_spec true (fun _ => false)
  have hfail := h.1.mpr (Or.inl ⟨rfl, rfl⟩)
  have hunlocked := h.2.1 hfail.2
  exact ⟨hfail.1, hfail.2, hunlocked.1, hunlocked.2⟩

/-! ### C7: secure_openat_read -/

/-- C7: `secure_openat_read` returns -1 with errno EINVAL exactly when the
`O_NOFOLLOW` open succeeded but the opened descriptor is not a regular file
or has link count above one (the hypothesis records that openat itself
never fails with EINVAL for these arguments); in particular every item with
`nlink > 1` is refused, so the time-file parser built on it fails for every
content. -/
theorem secure_openat_read_spec (res : Except Nat Inode)
    (hres : ∀ e, res = Except.error e → ¬(e = EINVAL)) :
    (secure_openat_read res = Except.error EINVAL ↔
      ∃ ino, res = Except.ok ino ∧ (¬(ino.ftype = FType.reg) ∨ 1 < ino.nlink))
    ∧ (∀ ino, res = Except.ok ino → 1 < ino.nlink →
        secure_openat_read res = Except.error EINVAL ∧
          ∀ content, parse_time_file_at_full res content = -1) := by
  rcases res with e | ino
  · refine ⟨⟨?_, ?_⟩, ?_⟩
    · intro h
      simp only [secure_openat_read] at h
      cases h
      exact absurd rfl (hres _ rfl)
    · rintro ⟨ino, habs, _⟩
      cases habs
    · intro ino habs
      cases habs
  · refine ⟨⟨?_, ?_⟩, ?_⟩
    · intro h
      by_cases hc : ¬(ino.ftype = FType.reg) ∨ 1 < ino.nlink
      · exact ⟨ino, rfl, hc⟩
      · simp only [secure_openat_read] at h
        rw [if_neg hc] at h
        cases h
    · rintro ⟨ino2, heq, hc⟩
      cases heq
      simp only [secure_openat_read]
      rw [if_pos hc]
    · rintro ino2 heq hn
      cases heq
      have hc : ¬(ino.ftype = FType.reg) ∨ 1 < ino.nlink := Or.inr hn
      constructor
      · simp only [secure_openat_read]
        rw [if_pos hc]
      · intro content
        simp only [parse_time_file_at_full, secure_openat_read]
        rw [if_pos hc]

theorem secure_openat_read_spec_witness :
    secure_openat_read (Except.ok ⟨FType.reg, 2⟩) = Except.error EINVAL ∧
      parse_time_file_at_full (Except.ok ⟨FType.reg, 2⟩) [48] = -1 := by
  have h := secure_openat_read_spec (Except.ok ⟨FType.reg, 2⟩)
    (fun e he => by cases he)
  have h2 := h.2 ⟨FType.reg, 2⟩ rfl (by decide)
  exact ⟨h2.1, h2.2 [48]⟩

/-! ### C9: dd_delete_item -/

/-- C9: on a locked handle and a valid item name, `dd_delete_item` returns
0 exactly when the unlink succeeded or failed with ENOENT (deleting an
absent item counts as success); any other unlink failure yields -1, and no
other return value is possible. -/
theorem dd_delete_item_spec (unlinkRes : Option Nat) :
    (dd_delete_item true true unlinkRes = some 0 ↔
      unlinkRes = none ∨ unlinkRes = some ENOENT)
    ∧ (dd_delete_item true true unlinkRes = some 0 ∨
        dd_delete_item true true unlinkRes = some (-1))
    ∧ (∀ e, unlinkRes = some e → ¬(e = ENOENT) →
        dd_delete_item true true unlinkRes = some (-1)) := by
  rcases unlinkRes with _ | e
  · refine ⟨by simp [dd_delete_item], Or.inl (by simp [dd_delete_item]), ?_⟩
    intro e h
    cases h
  · by_cases he : e = ENOENT
    · subst he
      refine ⟨by simp [dd_delete_item], Or.inl (by simp [dd_delete_item]), ?_⟩
      intro x hx hne
      cases hx
      exact absurd rfl hne
    · refine ⟨?_, Or.inr (by simp [dd_delete_item, he]), ?_⟩
      · simp [dd_delete_item, he]
      · intro x hx _
        cases hx
        simp [dd_delete_item, he]

theorem dd_delete_item_spec_witness :
    dd_delete_item true true (some ENOENT) = some 0 := by
  exact (dd_delete_item_spec (some ENOENT)).1.mpr (Or.inr rfl)

/-! ### C10: dd_exist -/

/-- C10: on a valid name, `dd_exist` is true exactly when the no-follow
stat succeeded and the entry is a regular file or a directory; a symbolic
link (dangling or not) stats as a link and is reported as not existing. -/
theorem dd_exist_spec (statRes : Option FType) :
    (dd_exist true statRes = some true ↔
      statRes = some FType.dir ∨ statRes = some FType.reg)
    ∧ dd_exist true (some FType.lnk) = some false := by
  refine ⟨?_, by simp [dd_exist, exist_file_dir_at]⟩
  rcases statRes with _ | t
  · simp [dd_exist, exist_file_dir_at]
  · cases t <;> simp [dd_exist, exist_file_dir_at]

theorem dd_exist_spec_witness :
    dd_exist true (some FType.reg) = some true := by
  exact (dd_exist_spec (some FType.reg)).1.mpr (Or.inr rfl)

/-! ### C2: parse_time_file_at -/

theorem all_takeWhile_self {p : Nat → Bool} {l : List Nat} (h : l.all p = true) :
    l.takeWhile p = l := by
  induction l with
  | nil => rfl
  | cons a as ih =>
    simp only [List.all_cons, Bool.and_eq_true] at h
    rw [List.takeWhile_cons_of_pos h.1, ih h.2]

theorem digit_not_space {c : Nat} (h : isdigit_byte c = true) : isspace_byte c = false := by
  simp only [isdigit_byte, Bool.and_eq_true, decide_eq_true_eq] at h
  simp only [isspace_byte, Bool.or_eq_false_iff, Bool.and_eq_false_iff,
    decide_eq_false_iff_not]
  omega

theorem max_time_t_cast : (MAX_TIME_T : Int) = LLONG_MAX := by
  unfold MAX_TIME_T LLONG_MAX
  norm_num

theorem strtoll10_digits {s : List Nat} (h : isdigit_str s = true) :
    strtoll10 s =
      if LLONG_MAX < (digitsVal s : Int)
      then (LLONG_MAX, s.length, true)
      else ((digitsVal s : Int), s.length, false) := by
  obtain ⟨hne, hall⟩ : ¬(s.isEmpty = true) ∧ s.all isdigit_byte = true := by
    simpa [isdigit_str] using h
  rcases s with _ | ⟨c, cs⟩
  · simp at hne
  · have hc : isdigit_byte c = true := by
      simp only [List.all_cons, Bool.and_eq_true] at hall
      exact hall.1
    have hcd : 48 ≤ c ∧ c ≤ 57 := by
      simpa [isdigit_byte] using hc
    have hsp : (c :: cs).takeWhile isspace_byte = [] :=
      List.takeWhile_cons_of_neg (by simp [digit_not_space hc])
    have h43 : ¬(some c = some 43 ∨ some c = some 45) := by
      rintro (h | h) <;> (cases h; omega)
    have h45 : ¬(some c = some 45) := by
      intro h
      cases h
      omega
    have htw : (c :: cs).takeWhile isdigit_byte = c :: cs := all_takeWhile_self hall
    have hmin2 : ¬((1 : Int) * (digitsVal (c :: cs) : Int) < LLONG_MIN) := by
      have h0 : (0 : Int) ≤ (digitsVal (c :: cs) : Int) := Int.natCast_nonneg _
      unfold LLONG_MIN
      omega
    have hmin3 : ¬((digitsVal (c :: cs) : Int) < LLONG_MIN) := by
      have h0 : (0 : Int) ≤ (digitsVal (c :: cs) : Int) := Int.natCast_nonneg _
      unfold LLONG_MIN
      omega
    simp only [strtoll10, hsp, List.length_nil, List.drop_zero, List.head?_cons,
      if_neg h43, if_neg h45, htw, List.isEmpty_cons, Bool.false_eq_true, if_false,
      one_mul, Nat.zero_add, gt_iff_lt, if_neg hmin2, if_neg hmin3]

/-- C2 is falsified by the content 123 followed by a NUL byte: the C-string
handling truncates the buffer at the NUL, so `parse_time_file_at` returns
123 although the content read is not a pure digit sequence (and the
claim therefore demands failure). -/
theorem parse_time_nul_counterexample :
    ¬ ((0 ≤ parse_time_file_at [49, 50, 51, 0]) ↔ c2_claim_ok [49, 50, 51, 0] = true) := by
  decide

/-- C2 as amended: the success condition applies to the content truncated
at its first NUL byte (after the trailing-newline strip), because the
parser handles the read buffer as a C string.  With that change the
claimed characterization holds exactly: success, returning the parsed
value, iff the read did not fill the buffer and the truncated string is a
non-empty digit sequence whose value is below `2 ^ 63 - 1`. -/
theorem parse_time_file_at_spec (content : List Nat) :
    parse_time_file_at content =
      if c2_amended_ok content = true
      then (digitsVal (time_str_of content) : Int)
      else -1 := by
  by_cases hlen : content.length < TIME_BUF_SIZE
  · have hne : ¬(min content.length TIME_BUF_SIZE = TIME_BUF_SIZE) := by
      have := Nat.min_eq_left (Nat.le_of_lt hlen)
      omega
    have hfold : content.take (min content.length TIME_BUF_SIZE) = content := by
      rw [Nat.min_eq_left (Nat.le_of_lt hlen), List.take_length]
    simp only [parse_time_file_at, if_neg hne, hfold]
    by_cases hdig : isdigit_str (time_str_of content) = true
    · rw [strtoll10_digits hdig]
      by_cases hv : digitsVal (time_str_of content) < MAX_TIME_T
      · have hbig : ¬(LLONG_MAX < (digitsVal (time_str_of content) : Int)) := by
          rw [← max_time_t_cast]
          intro habs
          rw [Int.lt_iff_add_one_le, ← Nat.cast_one, ← Nat.cast_add, Nat.cast_le] at habs
          omega
        have hge : ¬((digitsVal (time_str_of content) : Int) ≥ (MAX_TIME_T : Int)) := by
          rw [ge_iff_le, Nat.cast_le]
          omega
        have hok : c2_amended_ok content = true := by
          simp only [c2_amended_ok, Bool.and_eq_true, decide_eq_true_eq]
          exact ⟨⟨hlen, hdig⟩, hv⟩
        rw [if_neg hbig]
        simp [hok, hge, hdig]
      · have hok : c2_amended_ok content = false := by
          rw [Bool.eq_false_iff]
          intro habs
          simp only [c2_amended_ok, Bool.and_eq_true, decide_eq_true_eq] at habs
          exact hv habs.2
        by_cases hbig : LLONG_MAX < (digitsVal (time_str_of content) : Int)
        · rw [if_pos hbig]
          simp [hok]
        · rw [if_neg hbig]
          have hge : (digitsVal (time_str_of content) : Int) ≥ (MAX_TIME_T : Int) := by
            rw [ge_iff_le, Nat.cast_le]
            omega
          simp [hok, hge]
    · have hnd : isdigit_str (time_str_of content) = false := by
        revert hdig
        cases isdigit_str (time_str_of content) <;> simp
      have hok : c2_amended_ok content = false := by
        rw [Bool.eq_false_iff]
        intro habs
        simp only [c2_amended_ok, Bool.and_eq_true, decide_eq_true_eq] at habs
        rw [habs.1.2] at hnd
        exact Bool.noConfusion hnd
      simp [hok, hnd]
  · have hmin : min content.length TIME_BUF_SIZE = TIME_BUF_SIZE :=
      Nat.min_eq_right (by omega)
    have hok : c2_amended_ok content = false := by
      rw [Bool.eq_false_iff]
      intro habs
      simp only [c2_amended_ok, Bool.and_eq_true, decide_eq_true_eq] at habs
      exact absurd habs.1.1 (by omega)
    simp [parse_time_file_at, hmin, hok]

/-! ### C3 and C4: the text-loader sanitization and the round trip

Both claims require a final newline to be appended whenever the (sanitized)
content contains at least one newline but does not end with one.  The C
accumulator `int oneline` is shifted left once per newline; after 32
newlines the signed 32-bit value has overflowed to -1 (undefined behaviour
in C, a wrap on the actual targets), the comparison `oneline >= 1` is
false, and no newline is appended, contradicting the claims and the
explicit case analysis in the code comments. -/

/-- C4 evaluated at the failing input: 32 newlines followed by the letter
x.  Every byte is kept by the filter, the content has 32 newlines and an
unterminated last line, yet the loader returns it unchanged instead of
appending the claimed final newline. -/
theorem load_text_oneline_overflow :
    load_text_from_file_descriptor c4_bad = c4_bad ∧
      ¬(load_text_from_file_descriptor c4_bad = c4_bad ++ [10]) ∧
      c4_bad.count 10 = 32 ∧ ¬(c4_bad.getLast? = some 10) := by
  decide

/-- Contrast fact for C4: with 31 newlines (no overflow yet) the loader
does append the final newline, as the claim describes. -/
theorem load_text_append_below_overflow :
    load_text_from_file_descriptor (List.replicate 31 10 ++ [120]) =
      List.replicate 31 10 ++ [120] ++ [10] := by
  decide

/-- C3 evaluated at the failing payload: 32 newlines followed by the letter
a.  The payload contains no NUL and no non-whitespace control byte (the
sanitization keeps it verbatim), it contains newlines and does not end with
one, so the claim requires the round trip to append a final newline; the
code returns the payload unchanged. -/
theorem dd_round_trip_overflow :
    dd_round_trip c3_bad = c3_bad ∧
      ¬(dd_round_trip c3_bad = c3_bad ++ [10]) ∧
      c3_bad.all (fun b => decide (¬(b = 0)) && keep_byte b) = true ∧
      ¬(c3_bad.count 10 = 0) ∧ ¬(c3_bad.getLast? = some 10) := by
  decide

/-! ### C8: dump_dir_accessible_by_uid -/

/-- C8 counterexample: when the directory open fails with EACCES, the
claim says errno is preserved for the caller, but the code forces errno to
ENOTDIR (and returns false), so the EACCES value is lost. -/
theorem dump_dir_accessible_errno_counterexample :
    dump_dir_accessible_by_uid true (fun _ _ => false) (Except.error EACCES) 7 =
        (0, ENOTDIR) ∧
      ¬(ENOTDIR = EACCES) := by
  decide

theorem dump_dir_accessible_ok_eval (ownedByUser : Bool) (uidInGroup : Nat → Nat → Bool)
    (s : DirStat) (uid : Nat) (hdir : s.isDir = true) :
    dump_dir_accessible_by_uid ownedByUser uidInGroup (Except.ok s) uid =
      if uid = 0 ∨ s.worldRead = true ∨
          (if ownedByUser then decide (uid = s.owner) else uidInGroup uid s.group) = true
      then ((1 : Int), 0) else ((0 : Int), 0) := by
  have htf : ¬(true = false) := by simp
  by_cases hc2 : uid = 0 ∨ s.worldRead = true ∨
      (if ownedByUser then decide (uid = s.owner) else uidInGroup uid s.group) = true
  · rw [if_pos hc2]
    by_cases hc1 : uid = 0 ∨ s.worldRead = true
    · simp only [dump_dir_accessible_by_uid, dump_dir_stat_for_uid,
        fdump_dir_stat_for_uid, hdir]
      rw [if_neg htf, if_pos hc1, if_pos hc2]
      rfl
    · simp only [dump_dir_accessible_by_uid, dump_dir_stat_for_uid,
        fdump_dir_stat_for_uid, hdir]
      rw [if_neg htf, if_neg hc1, if_pos hc2]
      rfl
  · rw [if_neg hc2]
    have hc1 : ¬(uid = 0 ∨ s.worldRead = true) := by
      intro h
      exact hc2 (h.elim Or.inl (fun h2 => Or.inr (Or.inl h2)))
    simp only [dump_dir_accessible_by_uid, dump_dir_stat_for_uid,
      fdump_dir_stat_for_uid, hdir]
    rw [if_neg htf, if_neg hc1, if_neg hc2]
    rfl

/-- C8 as amended: `dump_dir_accessible_by_uid` returns true exactly when
the open succeeded on a directory and uid is 0, or the directory has the
world-read bit, or (per the DUMP_DIR_OWNED_BY_USER build-time policy) uid
equals the owner uid resp. is a member of the directory's group; the
return value is always 0 or 1; and on open failure or a non-directory it
returns false with errno set to ENOTDIR, overwriting the errno of the
failing syscall rather than preserving it (on success errno is cleared). -/
theorem dump_dir_accessible_by_uid_spec (ownedByUser : Bool)
    (uidInGroup : Nat → Nat → Bool) (openRes : Except Nat DirStat) (uid : Nat) :
    ((dump_dir_accessible_by_uid ownedByUser uidInGroup openRes uid).1 = 1 ↔
      ∃ s, openRes = Except.ok s ∧ s.isDir = true ∧
        (uid = 0 ∨ s.worldRead = true ∨
          (if ownedByUser then uid = s.owner else uidInGroup uid s.group = true)))
    ∧ ((dump_dir_accessible_by_uid ownedByUser uidInGroup openRes uid).1 = 0 ∨
        (dump_dir_accessible_by_uid ownedByUser uidInGroup openRes uid).1 = 1)
    ∧ (∀ e, openRes = Except.error e →
        dump_dir_accessible_by_uid ownedByUser uidInGroup openRes uid = (0, ENOTDIR))
    ∧ (∀ s, openRes = Except.ok s → s.isDir = false →
        dump_dir_accessible_by_uid ownedByUser uidInGroup openRes uid = (0, ENOTDIR))
    ∧ (∀ s, openRes = Except.ok s → s.isDir = true →
        (dump_dir_accessible_by_uid ownedByUser uidInGroup openRes uid).2 = 0) := by
  rcases openRes with e | s
  · refine ⟨⟨?_, ?_⟩, ?_, ?_, ?_, ?_⟩
    · intro h
      rw [show dump_dir_accessible_by_uid ownedByUser uidInGroup (Except.error e) uid =
          (0, ENOTDIR) from rfl] at h
      exact absurd h (by decide)
    · rintro ⟨s, habs, -⟩
      cases habs
    · left
      rfl
    · intro e2 _
      rfl
    · intro s habs
      cases habs
    · intro s habs
      cases habs
  · have hown : ((if ownedByUser then decide (uid = s.owner)
        else uidInGroup uid s.group) = true) ↔
        (if ownedByUser then uid = s.owner else uidInGroup uid s.group = true) := by
      cases ownedByUser <;> simp
    by_cases hdir : s.isDir = true
    · have heval := dump_dir_accessible_ok_eval ownedByUser uidInGroup s uid hdir
      refine ⟨⟨?_, ?_⟩, ?_, ?_, ?_, ?_⟩
      · intro h
        refine ⟨s, rfl, hdir, ?_⟩
        by_cases hc2 : uid = 0 ∨ s.worldRead = true ∨
            (if ownedByUser then decide (uid = s.owner) else uidInGroup uid s.group) = true
        · exact hc2.imp id (fun h2 => h2.imp id hown.mp)
        · rw [heval, if_neg hc2] at h
          exact absurd h (by decide)
      · rintro ⟨s2, heq, -, hc⟩
        cases heq
        rw [heval, if_pos (hc.imp id (fun h2 => h2.imp id hown.mpr))]
      · rw [heval]
        by_cases hc2 : uid = 0 ∨ s.worldRead = true ∨
            (if ownedByUser then decide (uid = s.owner) else uidInGroup uid s.group) = true
        · rw [if_pos hc2]
          right
          rfl
        · rw [if_neg hc2]
          left
          rfl
      · intro e habs
        cases habs
      · intro s2 heq habs
        cases heq
        rw [hdir] at habs
        exact absurd habs (by decide)
      · intro s2 heq _
        cases heq
        rw [heval]
        by_cases hc2 : uid = 0 ∨ s.worldRead = true ∨
            (if ownedByUser then decide (uid = s.owner) else uidInGroup uid s.group) = true
        · rw [if_pos hc2]
        · rw [if_neg hc2]
    · have hdir2 : s.isDir = false := by
        revert hdir
        cases s.isDir <;> simp
      have heval : dump_dir_accessible_by_uid ownedByUser uidInGroup (Except.ok s) uid =
          (0, ENOTDIR) := by
        simp only [dump_dir_accessible_by_uid, dump_dir_stat_for_uid,
          fdump_dir_stat_for_uid, hdir2]
        rfl
      refine ⟨⟨?_, ?_⟩, ?_, ?_, ?_, ?_⟩
      · intro h
        rw [heval] at h
        exact absurd h (by decide)
      · rintro ⟨s2, heq, habs, -⟩
        cases heq
        rw [hdir2] at habs
        exact absurd habs (by decide)
      · rw [heval]
        left
        rfl
      · intro e habs
        cases habs
      · intro s2 heq _
        cases heq
        exact heval
      · intro s2 heq habs
        cases heq
        rw [hdir2] at habs
        exact absurd habs (by decide)

theorem dump_dir_accessible_by_uid_spec_witness :
    (dump_dir_accessible_by_uid false (fun u g => decide (u = 7) && decide (g = 5))
        (Except.ok ⟨true, false, 9, 5⟩) 7).1 = 1 := by
  exact (dump_dir_accessible_by_uid_spec false
      (fun u g => decide (u = 7) && decide (g = 5)) (Except.ok ⟨true, false, 9, 5⟩) 7).1.mpr
    ⟨⟨true, false, 9, 5⟩, rfl, rfl, Or.inr (Or.inr (by decide))⟩

/-! ### C5: add_reported_to -/

theorem takeWhile_all {p : Nat → Bool} (l : List Nat) :
    (l.takeWhile p).all p = true := by
  induction l with
  | nil => rfl
  | cons a as ih =>
    by_cases ha : p a = true
    · rw [List.takeWhile_cons_of_pos ha]
      simp [ha, ih]
    · rw [List.takeWhile_cons_of_neg ha]
      rfl

theorem dropWhile_append_of_all {p : Nat → Bool} {a : List Nat} (b : List Nat)
    (h : a.all p = true) : (a ++ b).dropWhile p = b.dropWhile p := by
  induction a with
  | nil => rfl
  | cons x xs ih =>
    simp only [List.all_cons, Bool.and_eq_true] at h
    rw [List.cons_append, List.dropWhile_cons_of_pos h.1]
    exact ih h.2

theorem has_line_ne_nil (line : List Nat) {content : List Nat} (h : ¬(content = [])) :
    reported_to_has_line line content =
      (line_matches_at content line ||
        match tail_after_nl content with
        | none => false
        | some rest => reported_to_has_line line rest) := by
  rcases content with _ | ⟨c, cs⟩
  · exact absurd rfl h
  · rw [reported_to_has_line]
    rcases htail : tail_after_nl (c :: cs) with _ | rest
    · simp [htail]
    · simp [htail]

theorem count_ne_nil (line : List Nat) {content : List Nat} (h : ¬(content = [])) :
    reported_to_line_count line content =
      (if line_matches_at content line then 1 else 0) +
        match tail_after_nl content with
        | none => 0
        | some rest => reported_to_line_count line rest := by
  rcases content with _ | ⟨c, cs⟩
  · exact absurd rfl h
  · rw [reported_to_line_count]
    rcases htail : tail_after_nl (c :: cs) with _ | rest
    · simp [htail]
    · simp [htail]

theorem tail_after_nl_decomp {a : List Nat} (b X : List Nat)
    (ha : a.all (fun x => x ≠ 10) = true) :
    tail_after_nl ((a ++ 10 :: b) ++ X) = some (b ++ X) := by
  unfold tail_after_nl
  rw [List.append_assoc, List.cons_append, dropWhile_append_of_all _ ha,
    List.dropWhile_cons_of_neg (by simp)]

theorem tail_after_nl_decomp2 {a : List Nat} (b : List Nat)
    (ha : a.all (fun x => x ≠ 10) = true) :
    tail_after_nl (a ++ 10 :: b) = some b := by
  unfold tail_after_nl
  rw [dropWhile_append_of_all _ ha, List.dropWhile_cons_of_neg (by simp)]

theorem tail_after_nl_none {c : List Nat} (hc : c.all (fun x => x ≠ 10) = true) :
    tail_after_nl c = none := by
  unfold tail_after_nl
  rw [List.dropWhile_eq_nil_iff.mpr (List.all_eq_true.mp hc)]

theorem pre_decomp {pre : List Nat} (h : pre.getLast? = some 10) :
    ∃ a b, pre = a ++ 10 :: b ∧ a.all (fun x => x ≠ 10) = true ∧
      (b = [] ∨ b.getLast? = some 10) := by
  have hmem : (10 : Nat) ∈ pre := List.mem_of_mem_getLast? h
  have hd : ¬(pre.dropWhile (fun x => x ≠ 10) = []) := by
    intro habs
    have h2 := List.dropWhile_eq_nil_iff.mp habs 10 hmem
    simp at h2
  rcases hdrop : pre.dropWhile (fun x => x ≠ 10) with _ | ⟨d, ds⟩
  · exact absurd hdrop hd
  · have hd10 : d = 10 := by
      have h2 := List.head?_dropWhile_not (fun x => decide (x ≠ 10)) pre
      rw [hdrop] at h2
      simpa using h2
    subst hd10
    have hpre : pre = pre.takeWhile (fun x => x ≠ 10) ++ 10 :: ds := by
      conv_lhs => rw [← List.takeWhile_append_dropWhile (fun x => decide (x ≠ 10)) pre]
      rw [hdrop]
    refine ⟨pre.takeWhile (fun x => x ≠ 10), ds, hpre, takeWhile_all _, ?_⟩
    rcases ds with _ | ⟨y, ys⟩
    · exact Or.inl rfl
    · right
      rw [hpre, List.getLast?_append_cons, List.getLast?_cons_cons] at h
      exact h

theorem not_mem_of_all_ne {l : List Nat} (hl : l.all (fun x => x ≠ 10) = true) :
    ¬((10 : Nat) ∈ l) := by
  intro hm
  have h2 := List.all_eq_true.mp hl 10 hm
  simp at h2

theorem mem_decomp {c : List Nat} (hmem : (10 : Nat) ∈ c) :
    ∃ a b, c = a ++ 10 :: b ∧ a.all (fun x => x ≠ 10) = true := by
  have hd : ¬(c.dropWhile (fun x => x ≠ 10) = []) := by
    intro habs
    have h2 := List.dropWhile_eq_nil_iff.mp habs 10 hmem
    simp at h2
  rcases hdrop : c.dropWhile (fun x => x ≠ 10) with _ | ⟨d, ds⟩
  · exact absurd hdrop hd
  · have hd10 : d = 10 := by
      have h2 := List.head?_dropWhile_not (fun x => decide (x ≠ 10)) c
      rw [hdrop] at h2
      simpa using h2
    subst hd10
    have hc : c = c.takeWhile (fun x => x ≠ 10) ++ 10 :: ds := by
      conv_lhs => rw [← List.takeWhile_append_dropWhile (fun x => decide (x ≠ 10)) c]
      rw [hdrop]
    exact ⟨c.takeWhile (fun x => x ≠ 10), ds, hc, takeWhile_all _⟩

theorem line_matches_at_append_of_mem {pre l : List Nat} (X : List Nat)
    (hl : l.all (fun x => x ≠ 10) = true) (hmem : (10 : Nat) ∈ pre) :
    line_matches_at (pre ++ X) l = line_matches_at pre l := by
  have h10 := not_mem_of_all_ne hl
  unfold line_matches_at
  rcases Nat.lt_trichotomy l.length pre.length with hlt | heq | hgt
  · rw [List.take_append_of_le_length (Nat.le_of_lt hlt),
      List.drop_append_of_le_length (Nat.le_of_lt hlt)]
    have hne : ¬(pre.drop l.length = []) := by
      apply List.ne_nil_of_length_pos
      rw [List.length_drop]
      omega
    rcases hdd : pre.drop l.length with _ | ⟨d, ds⟩
    · exact absurd hdd hne
    · simp
  · have hpl : ¬(pre = l) := fun he => h10 (he ▸ hmem)
    rw [List.take_append_of_le_length (Nat.le_of_eq heq), heq, List.take_length]
    simp [decide_eq_false hpl]
  · have h1 : pre.take l.length = pre := List.take_of_length_le (Nat.le_of_lt hgt)
    have hA1 : ¬(pre ++ X.take (l.length - pre.length) = l) := by
      intro he
      exact h10 (he ▸ List.mem_append_left _ hmem)
    have hA2 : ¬(pre = l) := by
      intro he
      have h2 := congrArg List.length he
      simp at h2
      omega
    rw [List.take_append_eq_append_take, h1]
    simp [decide_eq_false hA1, decide_eq_false hA2]

theorem line_matches_at_self_nl (l t : List Nat) :
    line_matches_at (l ++ 10 :: t) l = true := by
  unfold line_matches_at
  rw [List.take_left, List.drop_left]
  simp

theorem line_matches_at_append_nl {c l : List Nat}
    (hl : l.all (fun x => x ≠ 10) = true) :
    line_matches_at (c ++ [10]) l = line_matches_at c l := by
  have h10 := not_mem_of_all_ne hl
  unfold line_matches_at
  rcases Nat.lt_trichotomy l.length c.length with hlt | heq | hgt
  · rw [List.take_append_of_le_length (Nat.le_of_lt hlt),
      List.drop_append_of_le_length (Nat.le_of_lt hlt)]
    have hne : ¬(c.drop l.length = []) := by
      apply List.ne_nil_of_length_pos
      rw [List.length_drop]
      omega
    rcases hdd : c.drop l.length with _ | ⟨d, ds⟩
    · exact absurd hdd hne
    · simp
  · rw [List.take_append_of_le_length (Nat.le_of_eq heq), heq, List.take_length]
    by_cases hcl : c = l
    · subst hcl
      simp [List.drop_left, List.drop_length]
    · simp [decide_eq_false hcl]
  · have h1 : c.take l.length = c := List.take_of_length_le (Nat.le_of_lt hgt)
    have h2 : (c ++ [10]).take l.length = c ++ [10] := by
      apply List.take_of_length_le
      rw [List.length_append]
      simp only [List.length_cons, List.length_nil]
      omega
    rw [h1, h2]
    have hA1 : ¬(c ++ [10] = l) := by
      intro he
      exact h10 (he ▸ List.mem_append_right c (by simp))
    have hA2 : ¬(c = l) := by
      intro he
      have h3 := congrArg List.length he
      omega
    simp [decide_eq_false hA1, decide_eq_false hA2]

theorem has_line_nil (l : List Nat) : reported_to_has_line l [] = false := by
  rw [reported_to_has_line]

theorem count_nil (l : List Nat) : reported_to_line_count l [] = 0 := by
  rw [reported_to_line_count]

theorem has_line_cons_tail (line : List Nat) {content rest : List Nat}
    (hne : ¬(content = [])) (ht : tail_after_nl content = some rest) :
    reported_to_has_line line content =
      (line_matches_at content line || reported_to_has_line line rest) := by
  rw [has_line_ne_nil line hne, ht]

theorem has_line_none_tail (line : List Nat) {content : List Nat}
    (hne : ¬(content = [])) (ht : tail_after_nl content = none) :
    reported_to_has_line line content = line_matches_at content line := by
  rw [has_line_ne_nil line hne, ht]
  simp

theorem count_cons_tail (line : List Nat) {content rest : List Nat}
    (hne : ¬(content = [])) (ht : tail_after_nl content = some rest) :
    reported_to_line_count line content =
      (if line_matches_at content line then 1 else 0) +
        reported_to_line_count line rest := by
  rw [count_ne_nil line hne, ht]

theorem count_none_tail (line : List Nat) {content : List Nat}
    (hne : ¬(content = [])) (ht : tail_after_nl content = none) :
    reported_to_line_count line content =
      (if line_matches_at content line then 1 else 0) := by
  rw [count_ne_nil line hne, ht]
  simp

theorem has_line_append_nil (l : List Nat) :
    reported_to_has_line l (l ++ [10]) = true := by
  rw [has_line_ne_nil l (by simp)]
  rw [line_matches_at_self_nl l []]
  simp

theorem has_line_append_aux (l : List Nat) :
    ∀ n pre, pre.length ≤ n → (pre = [] ∨ pre.getLast? = some 10) →
      reported_to_has_line l (pre ++ (l ++ [10])) = true := by
  intro n
  induction n with
  | zero =>
    intro pre hlen hpre
    have hpe : pre = [] := by
      rcases pre with _ | ⟨x, xs⟩
      · rfl
      · simp at hlen
    subst hpe
    simpa using has_line_append_nil l
  | succ n ih =>
    intro pre hlen hpre
    rcases hpre with rfl | hlast
    · simpa using has_line_append_nil l
    · obtain ⟨a, b, hdecomp, ha, hb⟩ := pre_decomp hlast
      subst hdecomp
      rw [has_line_cons_tail l (by simp) (tail_after_nl_decomp b (l ++ [10]) ha)]
      have hlenb : b.length ≤ n := by
        rw [List.length_append, List.length_cons] at hlen
        omega
      have hrec := ih b hlenb hb
      simp [hrec]

theorem has_line_iff_count_pos (l : List Nat) :
    ∀ n content, content.length ≤ n →
      (reported_to_has_line l content = true ↔
        0 < reported_to_line_count l content) := by
  intro n
  induction n with
  | zero =>
    intro content hlen
    have hce : content = [] := by
      rcases content with _ | ⟨x, xs⟩
      · rfl
      · simp at hlen
    subst hce
    simp [has_line_nil, count_nil]
  | succ n ih =>
    intro content hlen
    rcases content with _ | ⟨c, cs⟩
    · simp [has_line_nil, count_nil]
    · rcases htail : tail_after_nl (c :: cs) with _ | rest
      · rw [has_line_none_tail l (by simp) htail, count_none_tail l (by simp) htail]
        by_cases hm : line_matches_at (c :: cs) l = true
        · simp [hm]
        · simp [hm]
      · rw [has_line_cons_tail l (by simp) htail, count_cons_tail l (by simp) htail]
        have hrest : rest.length ≤ n := by
          have h2 := tail_after_nl_length htail
          rw [List.length_cons] at h2
          rw [List.length_cons] at hlen
          omega
        have hih := ih rest hrest
        by_cases hm : line_matches_at (c :: cs) l = true
        · have hhas : (line_matches_at (c :: cs) l || reported_to_has_line l rest) = true := by
            rw [hm]
            exact Bool.true_or _
          have hcount : 0 < (if line_matches_at (c :: cs) l = true then 1 else 0) +
              reported_to_line_count l rest := by
            rw [hm, if_pos rfl]
            omega
          exact iff_of_true hhas hcount
        · have hm2 : line_matches_at (c :: cs) l = false := by
            revert hm
            cases line_matches_at (c :: cs) l <;> simp
          simp [hm2, hih]

theorem has_line_snoc_nl (l : List Nat) (hl : l.all (fun x => x ≠ 10) = true) :
    ∀ n c, c.length ≤ n → ¬(c = []) → ¬(c.getLast? = some 10) →
      reported_to_has_line l (c ++ [10]) = reported_to_has_line l c := by
  intro n
  induction n with
  | zero =>
    intro c hlen hne _
    rcases c with _ | ⟨x, xs⟩
    · exact absurd rfl hne
    · simp at hlen
  | succ n ih =>
    intro c hlen hne hlast
    by_cases hfree : c.all (fun x => x ≠ 10) = true
    · rw [has_line_cons_tail l (by simp [hne]) (tail_after_nl_decomp2 ([] : List Nat) hfree),
        has_line_none_tail l hne (tail_after_nl_none hfree)]
      rw [line_matches_at_append_nl hl]
      simp [has_line_nil]
    · have hmem : (10 : Nat) ∈ c := by
        by_contra hnm
        apply hfree
        rw [List.all_eq_true]
        intro x hx
        simp only [decide_eq_true_eq]
        intro hx10
        subst hx10
        exact hnm hx
      obtain ⟨a, b, hdecomp, ha⟩ := mem_decomp hmem
      subst hdecomp
      have hbne : ¬(b = []) := by
        intro hbe
        subst hbe
        rw [List.getLast?_append_cons] at hlast
        simp at hlast
      have hblast : ¬(b.getLast? = some 10) := by
        rw [List.getLast?_append_cons] at hlast
        rcases b with _ | ⟨y, ys⟩
        · exact absurd rfl hbne
        · rw [List.getLast?_cons_cons] at hlast
          exact hlast
      rw [has_line_cons_tail l (by simp) (tail_after_nl_decomp b [10] ha),
        has_line_cons_tail l (by simp) (tail_after_nl_decomp2 b ha)]
      rw [line_matches_at_append_nl hl]
      have hlenb : b.length ≤ n := by
        rw [List.length_append, List.length_cons] at hlen
        omega
      have hrec := ih b hlenb hbne hblast
      rw [hrec]

theorem count_append_nil (l : List Nat) (hl : l.all (fun x => x ≠ 10) = true) :
    reported_to_line_count l (l ++ [10]) = 1 := by
  rw [count_cons_tail l (by simp) (tail_after_nl_decomp2 ([] : List Nat) hl)]
  rw [line_matches_at_self_nl l []]
  simp [count_nil]

theorem count_append_aux (l : List Nat) (hl : l.all (fun x => x ≠ 10) = true) :
    ∀ n pre, pre.length ≤ n → (pre = [] ∨ pre.getLast? = some 10) →
      reported_to_line_count l (pre ++ (l ++ [10])) =
        reported_to_line_count l pre + 1 := by
  intro n
  induction n with
  | zero =>
    intro pre hlen hpre
    have hpe : pre = [] := by
      rcases pre with _ | ⟨x, xs⟩
      · rfl
      · simp at hlen
    subst hpe
    simpa [count_nil] using count_append_nil l hl
  | succ n ih =>
    intro pre hlen hpre
    rcases hpre with rfl | hlast
    · simpa [count_nil] using count_append_nil l hl
    · have hmem : (10 : Nat) ∈ pre := List.mem_of_mem_getLast? hlast
      obtain ⟨a, b, hdecomp, ha, hb⟩ := pre_decomp hlast
      subst hdecomp
      rw [count_cons_tail l (by simp) (tail_after_nl_decomp b (l ++ [10]) ha),
        count_cons_tail l (show ¬(a ++ 10 :: b = []) by simp) (tail_after_nl_decomp2 b ha)]
      rw [line_matches_at_append_of_mem (l ++ [10]) hl hmem]
      have hlenb : b.length ≤ n := by
        rw [List.length_append, List.length_cons] at hlen
        omega
      rw [ih b hlenb hb]
      omega

theorem ensure_trailing_nl_inv (c : List Nat) :
    ensure_trailing_nl c = [] ∨ (ensure_trailing_nl c).getLast? = some 10 := by
  unfold ensure_trailing_nl
  by_cases hcond : ¬(c = []) ∧ ¬(c.getLast? = some 10)
  · rw [if_pos hcond]
    right
    exact List.getLast?_concat _
  · rw [if_neg hcond]
    by_cases hce : c = []
    · exact Or.inl hce
    · right
      by_contra hb
      exact hcond ⟨hce, hb⟩

theorem has_line_ensure (l c : List Nat) (hl : l.all (fun x => x ≠ 10) = true) :
    reported_to_has_line l (ensure_trailing_nl c) = reported_to_has_line l c := by
  unfold ensure_trailing_nl
  by_cases hcond : ¬(c = []) ∧ ¬(c.getLast? = some 10)
  · rw [if_pos hcond]
    exact has_line_snoc_nl l hl c.length c (Nat.le_refl _) hcond.1 hcond.2
  · rw [if_neg hcond]

/-- C5: on a locked handle, `add_reported_to` leaves the content unchanged
(no save) when some existing line is byte-equal to the new line; otherwise
it appends the line plus a newline after ensuring the existing content ends
with a newline; the operation is idempotent; and a fresh newline-free line
ends up occurring on exactly one line of the file. -/
theorem add_reported_to_spec (c l : List Nat) :
    (reported_to_has_line l c = true → add_reported_to c l = c)
    ∧ (reported_to_has_line l c = false →
        add_reported_to c l = ensure_trailing_nl c ++ l ++ [10])
    ∧ add_reported_to (add_reported_to c l) l = add_reported_to c l
    ∧ (l.all (fun x => x ≠ 10) = true → reported_to_has_line l c = false →
        reported_to_line_count l (add_reported_to c l) = 1) := by
  refine ⟨?_, ?_, ?_, ?_⟩
  · intro h
    unfold add_reported_to
    rw [if_pos h]
  · intro h
    unfold add_reported_to
    rw [if_neg (by simp [h])]
  · by_cases h : reported_to_has_line l c = true
    · unfold add_reported_to
      rw [if_pos h, if_pos h]
    · unfold add_reported_to
      rw [if_neg h]
      have hhas : reported_to_has_line l (ensure_trailing_nl c ++ l ++ [10]) = true := by
        have h2 := has_line_append_aux l (ensure_trailing_nl c).length
          (ensure_trailing_nl c) (Nat.le_refl _) (ensure_trailing_nl_inv c)
        rw [List.append_assoc]
        exact h2
      rw [if_pos hhas]
  · intro hl hf
    unfold add_reported_to
    rw [if_neg (by simp [hf])]
    have h1 : reported_to_line_count l (ensure_trailing_nl c ++ (l ++ [10])) =
        reported_to_line_count l (ensure_trailing_nl c) + 1 :=
      count_append_aux l hl (ensure_trailing_nl c).length (ensure_trailing_nl c)
        (Nat.le_refl _) (ensure_trailing_nl_inv c)
    have h2 : reported_to_line_count l (ensure_trailing_nl c) = 0 := by
      have hh : reported_to_has_line l (ensure_trailing_nl c) = false := by
        rw [has_line_ensure l c hl]
        exact hf
      have hiff := has_line_iff_count_pos l (ensure_trailing_nl c).length
        (ensure_trailing_nl c) (Nat.le_refl _)
      rw [hh] at hiff
      by_contra hnz
      have hpos : 0 < reported_to_line_count l (ensure_trailing_nl c) := by omega
      have habs := hiff.mpr hpos
      exact Bool.noConfusion habs
    rw [List.append_assoc, h1, h2]

theorem add_reported_to_spec_witness :
    add_reported_to (add_reported_to [] [65]) [65] = add_reported_to [] [65] ∧
      reported_to_line_count [65] (add_reported_to [] [65]) = 1 := by
  have h := add_reported_to_spec [] [65]
  exact ⟨h.2.2.1, h.2.2.2 (by decide) (has_line_nil [65])⟩

/-! ### C6: find_in_reported_to and parse_reported_line against the spec -/

theorem takeWhile_take_drop {q : Nat → Bool} :
    ∀ (S : List Nat) (n : Nat), (S.take n).all q = true →
      (S.takeWhile q).take n = S.take n ∧
        (S.takeWhile q).drop n = (S.drop n).takeWhile q := by
  intro S
  induction S with
  | nil =>
    intro n _
    simp
  | cons s ss ih =>
    intro n hall
    rcases n with _ | m
    · simp
    · rw [List.take_succ_cons] at hall
      simp only [List.all_cons, Bool.and_eq_true] at hall
      rw [List.takeWhile_cons_of_pos hall.1]
      obtain ⟨h1, h2⟩ := ih m hall.2
      constructor
      · rw [List.take_succ_cons, List.take_succ_cons, h1]
      · rw [List.drop_succ_cons, List.drop_succ_cons, h2]

theorem take_pfx_iff {q : Nat → Bool} {pfx : List Nat} (hq : pfx.all q = true)
    (S : List Nat) :
    S.take pfx.length = pfx ↔ (S.takeWhile q).take pfx.length = pfx := by
  constructor
  · intro h
    have hall : (S.take pfx.length).all q = true := by
      rw [h]
      exact hq
    rw [(takeWhile_take_drop S pfx.length hall).1, h]
  · intro h
    have hlen : pfx.length ≤ (S.takeWhile q).length := by
      have h2 := congrArg List.length h
      rw [List.length_take] at h2
      omega
    calc S.take pfx.length
        = (S.takeWhile q ++ S.dropWhile q).take pfx.length := by
          rw [List.takeWhile_append_dropWhile]
      _ = (S.takeWhile q).take pfx.length := List.take_append_of_le_length hlen
      _ = pfx := h

theorem take4_tag_iff {q : Nat → Bool} {T : List Nat} (hT : T.all q = true)
    (hT4 : T.length = 4) (S : List Nat) :
    S.take 4 = T ↔ (S.takeWhile q).take 4 = T := by
  have h := take_pfx_iff hT S
  rwa [hT4] at h

theorem url_or_none (u : Option (List Nat)) : url_or none u = u := rfl

theorem url_or_some (x : List Nat) (u : Option (List Nat)) :
    url_or (some x) u = some x := rfl

theorem url_or_none_right (a : Option (List Nat)) : url_or a none = a := by
  cases a <;> rfl

theorem url_or_assoc (a b c : Option (List Nat)) :
    url_or (url_or a b) c = url_or a (url_or b c) := by
  cases a <;> rfl

theorem find_data_nil (pfx : List Nat) : find_in_reported_to_data pfx [] = none := by
  rw [find_in_reported_to_data]

theorem find_data_ne_nil (pfx : List Nat) {content : List Nat} (hne : ¬(content = [])) :
    find_in_reported_to_data pfx content =
      (match tail_after_nl content with
       | none =>
         if content.take pfx.length = pfx
         then some ((content.drop pfx.length).takeWhile (fun b => b ≠ 10)) else none
       | some rest =>
         match find_in_reported_to_data pfx rest with
         | some r => some r
         | none =>
           if content.take pfx.length = pfx
           then some ((content.drop pfx.length).takeWhile (fun b => b ≠ 10)) else none) := by
  rcases content with _ | ⟨c, cs⟩
  · exact absurd rfl hne
  · rw [find_in_reported_to_data]
    rcases htail : tail_after_nl (c :: cs) with _ | rest
    · simp [htail]
    · simp [htail]

theorem find_data_none_tail (pfx : List Nat) {content : List Nat}
    (hne : ¬(content = [])) (ht : tail_after_nl content = none) :
    find_in_reported_to_data pfx content =
      (if content.take pfx.length = pfx
       then some ((content.drop pfx.length).takeWhile (fun b => b ≠ 10)) else none) := by
  rw [find_data_ne_nil pfx hne, ht]

theorem find_data_some_tail (pfx : List Nat) {content rest : List Nat}
    (hne : ¬(content = [])) (ht : tail_after_nl content = some rest) :
    find_in_reported_to_data pfx content =
      (match find_in_reported_to_data pfx rest with
       | some r => some r
       | none =>
         if content.take pfx.length = pfx
         then some ((content.drop pfx.length).takeWhile (fun b => b ≠ 10)) else none) := by
  rw [find_data_ne_nil pfx hne, ht]

theorem lines_of_nil : lines_of [] = [] := by
  rw [lines_of]

theorem lines_of_ne_nil {content : List Nat} (hne : ¬(content = [])) :
    lines_of content =
      content.takeWhile (fun b => b ≠ 10) ::
        (match tail_after_nl content with
         | none => []
         | some rest => lines_of rest) := by
  rcases content with _ | ⟨c, cs⟩
  · exact absurd rfl hne
  · rw [lines_of]
    rcases htail : tail_after_nl (c :: cs) with _ | rest
    · simp [htail]
    · simp [htail]

theorem lines_of_none_tail {content : List Nat} (hne : ¬(content = []))
    (ht : tail_after_nl content = none) :
    lines_of content = [content.takeWhile (fun b => b ≠ 10)] := by
  rw [lines_of_ne_nil hne, ht]

theorem lines_of_some_tail {content rest : List Nat} (hne : ¬(content = []))
    (ht : tail_after_nl content = some rest) :
    lines_of content = content.takeWhile (fun b => b ≠ 10) :: lines_of rest := by
  rw [lines_of_ne_nil hne, ht]

theorem parse_loop_eq (line : List Nat) (u : Option (List Nat)) :
    parse_reported_loop line u =
      (match line.dropWhile isspace_byte with
       | [] => ⟨u, none⟩
       | c :: cs =>
         if (c :: cs).take 4 = MSG_TAG then ⟨u, some ((c :: cs).drop 4)⟩
         else
           parse_reported_loop
             ((c :: cs).drop ((c :: cs).takeWhile (fun b => !isspace_byte b)).length)
             (if (c :: cs).take 4 = URL_TAG
              then some (((c :: cs).takeWhile (fun b => !isspace_byte b)).drop 4)
              else u)) := by
  rw [parse_reported_loop]
  rcases hs : line.dropWhile isspace_byte with _ | ⟨c, cs⟩
  · simp [hs]
  · simp [hs]

theorem parse_loop_nil {line : List Nat} (u : Option (List Nat))
    (hs : line.dropWhile isspace_byte = []) :
    parse_reported_loop line u = ⟨u, none⟩ := by
  rw [parse_loop_eq, hs]

theorem parse_loop_cons {line : List Nat} (u : Option (List Nat)) {c : Nat} {cs : List Nat}
    (hs : line.dropWhile isspace_byte = c :: cs) :
    parse_reported_loop line u =
      (if (c :: cs).take 4 = MSG_TAG then ⟨u, some ((c :: cs).drop 4)⟩
       else
         parse_reported_loop
           ((c :: cs).drop ((c :: cs).takeWhile (fun b => !isspace_byte b)).length)
           (if (c :: cs).take 4 = URL_TAG
            then some (((c :: cs).takeWhile (fun b => !isspace_byte b)).drop 4)
            else u)) := by
  rw [parse_loop_eq, hs]

theorem token_splits_nil {line : List Nat} (hs : line.dropWhile isspace_byte = []) :
    token_splits line = [] := by
  rw [token_splits]
  rw [hs]

theorem token_splits_cons {line : List Nat} {c : Nat} {cs : List Nat}
    (hs : line.dropWhile isspace_byte = c :: cs) :
    token_splits line =
      ((c :: cs).takeWhile (fun b => !isspace_byte b), c :: cs) ::
        token_splits
          ((c :: cs).drop ((c :: cs).takeWhile (fun b => !isspace_byte b)).length) := by
  have h := parse_loop_eq
  rw [show token_splits line =
      (match line.dropWhile isspace_byte with
       | [] => []
       | c2 :: cs2 =>
         ((c2 :: cs2).takeWhile (fun b => !isspace_byte b), c2 :: cs2) ::
           token_splits
             ((c2 :: cs2).drop ((c2 :: cs2).takeWhile (fun b => !isspace_byte b)).length))
    from by
      rw [token_splits]
      rcases hs2 : line.dropWhile isspace_byte with _ | ⟨c2, cs2⟩
      · simp [hs2]
      · simp [hs2]]
  rw [hs]

theorem getLast?_singleton (x : List Nat) : ([x] : List (List Nat)).getLast? = some x := rfl

theorem getLast?_cons_as_url_or (x : List Nat) (xs : List (List Nat)) :
    (x :: xs).getLast? = url_or xs.getLast? (some x) := by
  rcases hx : xs.getLast? with _ | r
  · have hxe : xs = [] := List.getLast?_eq_none_iff.mp hx
    subst hxe
    rfl
  · have hne : ¬(xs = []) := by
      intro h
      rw [h] at hx
      cases hx
    rw [show x :: xs = [x] ++ xs from rfl, List.getLast?_append_of_ne_nil _ hne, hx]
    rfl

theorem find_data_spec (pfx : List Nat) (hp : pfx.all (fun x => x ≠ 10) = true) :
    ∀ n content, content.length ≤ n →
      find_in_reported_to_data pfx content = spec_find_last content pfx := by
  intro n
  induction n with
  | zero =>
    intro content hlen
    have hce : content = [] := by
      rcases content with _ | ⟨x, xs⟩
      · rfl
      · simp at hlen
    subst hce
    rw [find_data_nil]
    simp [spec_find_last, lines_of_nil]
  | succ n ih =>
    intro content hlen
    rcases content with _ | ⟨c, cs⟩
    · rw [find_data_nil]
      simp [spec_find_last, lines_of_nil]
    · have hiff := take_pfx_iff hp (c :: cs)
      rcases htail : tail_after_nl (c :: cs) with _ | rest
      · rw [find_data_none_tail pfx (by simp) htail]
        rw [spec_find_last, lines_of_none_tail (by simp) htail]
        by_cases hP : (c :: cs).take pfx.length = pfx
        · have hP0 : ((c :: cs).takeWhile (fun b => b ≠ 10)).take pfx.length = pfx :=
            hiff.mp hP
          have hdrop := (takeWhile_take_drop (c :: cs) pfx.length (by rw [hP]; exact hp)).2
          rw [if_pos hP, List.filter_cons, if_pos (decide_eq_true hP0), List.filter_nil,
            getLast?_singleton, Option.map_some', hdrop]
        · have hP0 : ¬(((c :: cs).takeWhile (fun b => b ≠ 10)).take pfx.length = pfx) :=
            fun h => hP (hiff.mpr h)
          rw [if_neg hP, List.filter_cons,
            if_neg (by simp only [decide_eq_true_eq]; exact hP0), List.filter_nil]
          rfl
      · rw [find_data_some_tail pfx (by simp) htail]
        have hrest : rest.length ≤ n := by
          have h2 := tail_after_nl_length htail
          rw [List.length_cons] at h2
          rw [List.length_cons] at hlen
          omega
        rw [ih rest hrest]
        rcases hsf : spec_find_last rest pfx with _ | r
        · have hfil : (lines_of rest).filter (fun l2 => l2.take pfx.length = pfx) = [] := by
            rw [spec_find_last] at hsf
            rcases hl2 : ((lines_of rest).filter
                (fun l2 => l2.take pfx.length = pfx)).getLast? with _ | r0
            · exact List.getLast?_eq_none_iff.mp hl2
            · rw [hl2] at hsf
              simp at hsf
          rw [spec_find_last, lines_of_some_tail (by simp) htail, List.filter_cons, hfil]
          by_cases hP : (c :: cs).take pfx.length = pfx
          · have hP0 : ((c :: cs).takeWhile (fun b => b ≠ 10)).take pfx.length = pfx :=
              hiff.mp hP
            have hdrop := (takeWhile_take_drop (c :: cs) pfx.length (by rw [hP]; exact hp)).2
            rw [if_pos hP, if_pos (decide_eq_true hP0), getLast?_singleton,
              Option.map_some', hdrop]
          · have hP0 : ¬(((c :: cs).takeWhile (fun b => b ≠ 10)).take pfx.length = pfx) :=
              fun h => hP (hiff.mpr h)
            rw [if_neg hP, if_neg (by simp only [decide_eq_true_eq]; exact hP0)]
            rfl
        · have hr0 : ∃ r0, ((lines_of rest).filter
              (fun l2 => l2.take pfx.length = pfx)).getLast? = some r0 ∧
                r = r0.drop pfx.length := by
            rw [spec_find_last] at hsf
            rcases hl2 : ((lines_of rest).filter
                (fun l2 => l2.take pfx.length = pfx)).getLast? with _ | r0
            · rw [hl2] at hsf
              simp at hsf
            · rw [hl2, Option.map_some'] at hsf
              cases hsf
              exact ⟨r0, hl2, rfl⟩
          obtain ⟨r0, hl2, hr⟩ := hr0
          have hne2 : ¬((lines_of rest).filter (fun l2 => l2.take pfx.length = pfx) = []) := by
            intro h
            rw [h] at hl2
            cases hl2
          show some r = _
          rw [spec_find_last, lines_of_some_tail (by simp) htail, List.filter_cons]
          by_cases hP0 : ((c :: cs).takeWhile (fun b => b ≠ 10)).take pfx.length = pfx
          · rw [if_pos (decide_eq_true hP0)]
            rw [show ((c :: cs).takeWhile (fun b => b ≠ 10) ::
                (lines_of rest).filter (fun l2 => l2.take pfx.length = pfx)) =
                [(c :: cs).takeWhile (fun b => b ≠ 10)] ++
                  (lines_of rest).filter (fun l2 => l2.take pfx.length = pfx) from rfl]
            rw [List.getLast?_append_of_ne_nil _ hne2, hl2, Option.map_some', ← hr]
          · rw [if_neg (by simp only [decide_eq_true_eq]; exact hP0), hl2,
              Option.map_some', ← hr]

theorem spec_parse_cons_msg {line tok S rest2 : List Nat}
    (hts : token_splits line = (tok, S) :: token_splits rest2)
    (hm : tok.take 4 = MSG_TAG) :
    spec_parse line = ⟨none, some (S.drop 4)⟩ := by
  simp only [spec_parse, hts]
  rw [List.takeWhile_cons_of_neg (by simp [hm])]
  simp

theorem spec_parse_cons_not_msg {line tok S rest2 : List Nat}
    (hts : token_splits line = (tok, S) :: token_splits rest2)
    (hm : ¬(tok.take 4 = MSG_TAG)) :
    spec_parse line =
      ⟨url_or (spec_parse rest2).url
          (if tok.take 4 = URL_TAG then some (tok.drop 4) else none),
        (spec_parse rest2).msg⟩ := by
  simp only [spec_parse, hts]
  rw [List.takeWhile_cons_of_pos (by simp [hm])]
  simp only [List.length_cons, List.drop_succ_cons, List.map_cons, List.filter_cons]
  refine congrArg₂ ReportResult.mk ?_ rfl
  by_cases hurl : tok.take 4 = URL_TAG
  · rw [if_pos hurl, if_pos (by simp [hurl])]
    rw [List.map_cons, getLast?_cons_as_url_or]
  · rw [if_neg hurl, if_neg (by simp [hurl])]
    rw [url_or_none_right]

theorem parse_loop_spec :
    ∀ n line u, line.length ≤ n →
      parse_reported_loop line u =
        ⟨url_or (spec_parse line).url u, (spec_parse line).msg⟩ := by
  intro n
  induction n with
  | zero =>
    intro line u hlen
    have hle : line = [] := by
      rcases line with _ | ⟨x, xs⟩
      · rfl
      · simp at hlen
    subst hle
    rw [@parse_loop_nil [] u rfl]
    have hts : token_splits [] = [] := token_splits_nil rfl
    simp [spec_parse, hts, url_or]
  | succ n ih =>
    intro line u hlen
    rcases hs : line.dropWhile isspace_byte with _ | ⟨c, cs⟩
    · rw [parse_loop_nil u hs]
      have hts := token_splits_nil hs
      simp [spec_parse, hts, url_or]
    · have hc : isspace_byte c = false := by
        have h2 := List.head?_dropWhile_not isspace_byte line
        rw [hs] at h2
        simpa using h2
      have hts := token_splits_cons hs
      rw [parse_loop_cons u hs]
      have htagm : ((c :: cs).take 4 = MSG_TAG) ↔
          (((c :: cs).takeWhile (fun b => !isspace_byte b)).take 4 = MSG_TAG) :=
        take4_tag_iff (by decide) (by decide) (c :: cs)
      have htagu : ((c :: cs).take 4 = URL_TAG) ↔
          (((c :: cs).takeWhile (fun b => !isspace_byte b)).take 4 = URL_TAG) :=
        take4_tag_iff (by decide) (by decide) (c :: cs)
      by_cases hmsg : (c :: cs).take 4 = MSG_TAG
      · rw [if_pos hmsg]
        rw [spec_parse_cons_msg hts (htagm.mp hmsg)]
        rfl
      · rw [if_neg hmsg]
        rw [spec_parse_cons_not_msg hts (fun h => hmsg (htagm.mpr h))]
        have htok1 : 1 ≤ ((c :: cs).takeWhile (fun b => !isspace_byte b)).length := by
          rw [List.takeWhile_cons_of_pos (by simp [hc])]
          simp
        have hlen2 :
            ((c :: cs).drop ((c :: cs).takeWhile (fun b => !isspace_byte b)).length).length
              ≤ n := by
          have h3 := length_dropWhile_le isspace_byte line
          rw [hs] at h3
          rw [List.length_drop, List.length_cons]
          rw [List.length_cons] at h3
          omega
        rw [ih _ _ hlen2]
        by_cases hurl : (c :: cs).take 4 = URL_TAG
        · rw [if_pos hurl, if_pos (htagu.mp hurl)]
          rcases (spec_parse ((c :: cs).drop
              ((c :: cs).takeWhile (fun b => !isspace_byte b)).length)).url with _ | y
          · rfl
          · rfl
        · rw [if_neg hurl, if_neg (fun h => hurl (htagu.mpr h))]
          rcases (spec_parse ((c :: cs).drop
              ((c :: cs).takeWhile (fun b => !isspace_byte b)).length)).url with _ | y
          · rfl
          · rfl

theorem parse_reported_line_eq_spec (l : List Nat) :
    parse_reported_line l = spec_parse l := by
  unfold parse_reported_line
  rw [parse_loop_spec l.length l none (Nat.le_refl _)]
  rw [url_or_none_right]

/-- C6: `find_in_reported_to` equals the spec-side description: select the
last line (in file order) starting with the prefix, and parse only its
suffix after the prefix by whitespace tokens, a URL= token overwriting the
URL field (last one wins), a token starting with MSG= consuming the rest of
the line into the message field and terminating, all other tokens ignored;
the result is null when no line matches or the file is absent.  The
hypothesis restricts to newline-free prefixes, for which "a line starts
with the prefix" is meaningful. -/
theorem find_in_reported_to_spec (c pfx : List Nat)
    (hp : pfx.all (fun x => x ≠ 10) = true) :
    find_in_reported_to (some c) pfx = (spec_find_last c pfx).map spec_parse
    ∧ find_in_reported_to none pfx = none := by
  constructor
  · show (find_in_reported_to_data pfx c).map parse_reported_line = _
    rw [find_data_spec pfx hp c.length c (Nat.le_refl _)]
    rcases spec_find_last c pfx with _ | r
    · rfl
    · simp [parse_reported_line_eq_spec]
  · rfl

theorem find_in_reported_to_spec_witness :
    ([66, 58, 32] : List Nat).all (fun x => x ≠ 10) = true ∧
      find_in_reported_to (some [66, 58, 32, 85, 82, 76, 61, 97]) [66, 58, 32] =
        (spec_find_last [66, 58, 32, 85, 82, 76, 61, 97] [66, 58, 32]).map spec_parse := by
  exact ⟨by decide,
    (find_in_reported_to_spec [66, 58, 32, 85, 82, 76, 61, 97] [66, 58, 32] (by decide)).1⟩

end DumpDir
